import Mathlib

/-!
Shallow embedding of `src/io_helper.h` (Othello k-mer I/O utilities).

Machine integers are modelled as `Nat`/`Int`; where the C++ code truncates to a
fixed width (the `uint32_t` group id) the truncation is written explicitly as
`% 2 ^ 32`.  The template parameter `keyType` is an unsigned integer wide
enough for `2 * kmerlength` bits, so keys are modelled as plain `Nat`.
Files are modelled as lists: a text file is a `List Char`, a binary record
file is a `List α` of whole records (`fread`/`fwrite` move whole records).
-/

/-- Record buffer capacity: `static const int buflen = 16;`, identically
declared in `BinaryKmerReader` and `BinaryKmerWriter`. -/
def buflen : Nat := 16

/-- Parameters of `ConstantLengthKmerHelper` (fields `kmerlength` and
`splitbit`, both `uint8_t`, set by the constructor). -/
structure ConstantLengthKmerHelper where
  kmerlength : Nat
  splitbit : Nat
  deriving DecidableEq

namespace ConstantLengthKmerHelper

/-- Embedding of `splitgrp`: `mvcnt = 2*kmerlength - splitbit`;
`grp = (uint32_t)(key >> mvcnt)` (the assignment of the `keyType` value
`high` to the `uint32_t` reference `grp` truncates mod `2^32`);
`keyInGroup = key & ((1 << mvcnt) - 1)`. -/
def splitgrp (h : ConstantLengthKmerHelper) (key : Nat) : Nat × Nat :=
  let mvcnt := 2 * h.kmerlength - h.splitbit
  let high := key >>> mvcnt
  let grp := high % 2 ^ 32
  let lowmask := (1 : Nat) <<< mvcnt
  (grp, key &&& (lowmask - 1))

/-- Embedding of `combgrp`: `key = grp; key <<= 2*kmerlength - splitbit;
key |= keyInGroup;`.  The argument `grp` is a `uint32_t` in the source, so its
value is reduced mod `2^32`. -/
def combgrp (h : ConstantLengthKmerHelper) (grp keyInGroup : Nat) : Nat :=
  let key := grp % 2 ^ 32
  (key <<< (2 * h.kmerlength - h.splitbit)) ||| keyInGroup

end ConstantLengthKmerHelper

/-- Character test of the `while` loop in `convert`:
`*s == 'A' || *s == 'C' || *s == 'T' || *s == 'G'` (same set as the four
`case` labels of the outer `switch`). -/
def isBase (c : Char) : Bool :=
  c = 'A' || c = 'C' || c = 'T' || c = 'G'

/-- Value added to `ret` by the fall-through `switch` in `convert`:
`case 'T': ret++; case 'G': ret++; case 'C': ret++;` — so T adds 3, G adds 2,
C adds 1 and A adds 0. -/
def baseVal (c : Char) : Nat :=
  if c = 'T' then 3 else if c = 'G' then 2 else if c = 'C' then 1 else 0

/-- The scanning loop of `convert`: while the current character is a base,
`ret <<= 2` then the fall-through increments (together `ret = ret*4 + value`);
returns the accumulated key and the unconsumed remainder of the line. -/
def scanKmer : Nat → List Char → Nat × List Char
  | ret, [] => (ret, [])
  | ret, c :: rest =>
    if isBase c then scanKmer (ret * 4 + baseVal c) rest else (ret, c :: rest)

/-- Whitespace set skipped by `sscanf` with a `%d` conversion (C `isspace`). -/
def isSpaceChar (c : Char) : Bool :=
  c = ' ' || c = '\t' || c = '\n' || c = '\x0b' || c = '\x0c' || c = '\r'

/-- Decimal accumulation of a digit run, most significant digit first. -/
def natOfDigits (ds : List Char) : Nat :=
  ds.foldl (fun a c => a * 10 + (c.toNat - 48)) 0

/-- Reads a nonempty leading digit run; `none` if the first character is not a
digit. -/
def readDigits (s : List Char) : Option Nat :=
  let ds := s.takeWhile Char.isDigit
  if ds.isEmpty then none else some (natOfDigits ds)

/-- Model of `sscanf(s, "%d", &tv)`: skip whitespace, then an optional sign
immediately followed by at least one digit; `none` when no integer token can
be matched (in which case the C call returns 0 and stores nothing). -/
def sscanfD (s : List Char) : Option Int :=
  let s1 := s.dropWhile isSpaceChar
  match s1 with
  | c :: rest =>
    if c = '-' then (readDigits rest).map (fun n => -(n : Int))
    else if c = '+' then (readDigits rest).map (fun n => (n : Int))
    else (readDigits (c :: rest)).map (fun n => (n : Int))
  | [] => none

/-- Embedding of `ConstantLengthKmerHelper::convert(char *s, keyType *k,
valueType *v)`.  Result `none` models `return false` (first character outside
the `switch` cases, no outputs written).  Result `some (k, v?)` models
`return true` with `*k = ret`; `v? = none` records that `sscanf` matched no
integer, in which case the C++ code still returns `true` but `*v` receives
the uninitialized local `tv` (indeterminate value). -/
def convert (s : List Char) : Option (Nat × Option Int) :=
  match s with
  | [] => none
  | c :: _ =>
    if isBase c then
      let r := scanKmer 0 s
      some (r.1, sscanfD r.2)
    else none

/-- Branch structure of `human(uint64_t word)`.  The numeric text of the
three floating-point branches (`word*1.0/1024` etc., stream-formatted
doubles) is kept symbolic; the integer branches carry the exact printed
number. -/
inductive HumanFmt where
  | intRaw (n : Nat)
  | floatK (w : Nat)
  | intK (q : Nat)
  | floatM (w : Nat)
  | intM (q : Nat)
  | floatG (w : Nat)
  deriving DecidableEq

/-- Embedding of `human`: the exact chain of thresholds and divisors.
`(1048576 << 10)` in the source equals `1073741824`. -/
def human (word : Nat) : HumanFmt :=
  if word ≤ 1024 then .intRaw word
  else if word ≤ 10240 then .floatK word
  else if word ≤ 1048576 then .intK (word / 1024)
  else if word ≤ 10485760 then .floatM word
  else if word ≤ 1048576 * 1024 then .intM (word / 1048576)
  else .floatG word

/-- Suffix appended by each `human` branch. -/
def HumanFmt.suffix : HumanFmt → String
  | .intRaw _ => ""
  | .floatK _ => "K"
  | .intK _ => "K"
  | .floatM _ => "M"
  | .intM _ => "M"
  | .floatG _ => "G"

/-- Full printed string of a `human` branch, where determined by integer
arithmetic (`none` for the three floating-point branches, whose digits
depend on `double` stream formatting). -/
def HumanFmt.render : HumanFmt → Option String
  | .intRaw n => some (toString n)
  | .intK q => some (toString q ++ "K")
  | .intM q => some (toString q ++ "M")
  | _ => none

/-- Path fixup shared verbatim by the constructors of `KmerFileReader`,
`BinaryKmerReader` and `BinaryKmerWriter`:
`if (buf[strlen(buf)-1] == 0x0a) buf[strlen(buf)-1] = 0;` — exactly one
trailing line-feed is chopped; nothing else is touched.  (For the empty
string the C++ indexes `buf[-1]`, undefined; the model leaves it unchanged.) -/
def stripTrailingNewline (s : List Char) : List Char :=
  if s.getLast? = some '\n' then s.dropLast else s

/-- State produced by each of the three constructors: the stored `FILE *f`.
`none` models a `NULL` handle.  `fs` abstracts the filesystem: the handle
`fopen` yields for a given (already fixed-up) path, or `none` on failure. -/
structure OpenResult (Handle : Type) where
  f : Option Handle
  deriving DecidableEq

/-- Common constructor body of `KmerFileReader`, `BinaryKmerReader` and
`BinaryKmerWriter`: fix up the path, call `fopen`, store the result in `f`
unconditionally (the source checks nothing and only `printf`s), and return
normally — construction never fails. -/
def openByName {Handle : Type} (fs : List Char → Option Handle)
    (fname : List Char) : OpenResult Handle :=
  { f := fs (stripTrailingNewline fname) }

/-- Model of `fgets(buf, 1024, f)` reading from the remaining character
stream: at most 1023 characters are consumed, stopping after the first
line feed; returns the line and the rest of the stream, or `none` at end of
input. -/
def fgetsAux : Nat → List Char → List Char × List Char
  | 0, s => ([], s)
  | _ + 1, [] => ([], [])
  | n + 1, c :: rest =>
    if c = '\n' then ([c], rest)
    else
      let r := fgetsAux n rest
      (c :: r.1, r.2)

/-- Model of one `fgets` call with the fixed 1024-byte line buffer of
`KmerFileReader::getNext` (1023 usable characters). -/
def fgets1024 (stream : List Char) : Option (List Char × List Char) :=
  if stream.isEmpty then none else some (fgetsAux 1023 stream)

/-- Embedding of `KmerFileReader::getNext`: one `fgets` into the 1024-byte
buffer, then `convert`.  First component: `none` models `return false`
(end of input); `some r` models `return helper->convert(buf, T, V)` with
`r` the `convert` outcome.  Second component: the unread remainder of the
stream. -/
def KmerFileReader.getNext (stream : List Char) :
    Option (Option (Nat × Option Int)) × List Char :=
  match fgets1024 stream with
  | none => (none, stream)
  | some lr => (some (convert lr.1), lr.2)

/-- State of `BinaryKmerReader`: the unread tail of the record file
(`stream`), the first `max` slots of the in-memory buffer `KVpair buf[1024]`
(`buf`), and the counters `curr` and `max`. -/
structure BinaryKmerReader (α : Type) where
  stream : List α
  buf : List α
  curr : Nat
  max : Nat
  deriving DecidableEq

/-- Outcome of one `BinaryKmerReader::getNext` call.  `eof` is the explicit
`return false` taken when `fread` yields zero records.  `record r` is the
path that copies `buf[curr]` into `*ret` and increments `curr`; on this path
control falls off the end of the non-void C++ function, so it carries no
boolean (see `BinaryKmerReader.getNextRetVal`). -/
inductive GetNextResult (α : Type) where
  | eof
  | record (r : α)
  deriving DecidableEq

/-- Constructor state of `BinaryKmerReader` reading a file holding the
record list `stream`: `curr = 0`, `max = 0`, buffer not yet filled. -/
def BinaryKmerReader.initRead {α : Type} (stream : List α) :
    BinaryKmerReader α :=
  { stream := stream, buf := [], curr := 0, max := 0 }

/-- Embedding of `BinaryKmerReader::getNext`: when `curr == max`, refill with
`max = fread(buf, sizeof(buf[0]), buflen, f)` (up to `buflen` whole records);
`fread` returning 0 is the `return false` path (it sets `max = 0` and leaves
`curr` untouched); otherwise `curr = 0`, then — as on the no-refill path —
`memcpy(ret, &buf[curr], ...)` and `curr++`. -/
def BinaryKmerReader.getNext {α : Type} [Inhabited α]
    (s : BinaryKmerReader α) : GetNextResult α × BinaryKmerReader α :=
  if s.curr = s.max then
    let chunk := s.stream.take buflen
    if chunk.length = 0 then
      (.eof, { s with max := 0 })
    else
      let s1 : BinaryKmerReader α :=
        { stream := s.stream.drop buflen, buf := chunk, curr := 0,
          max := chunk.length }
      (.record (s1.buf.getD s1.curr default), { s1 with curr := s1.curr + 1 })
  else
    (.record (s.buf.getD s.curr default), { s with curr := s.curr + 1 })

/-- The C++ return value of `BinaryKmerReader::getNext` on the same state:
`some false` on the explicit `return false`; `none` on the path that copies a
record, where the non-void function ends without a `return` statement and the
returned boolean is undefined. -/
def BinaryKmerReader.getNextRetVal {α : Type} (s : BinaryKmerReader α) :
    Option Bool :=
  if s.curr = s.max then
    if (s.stream.take buflen).length = 0 then some false else none
  else none

/-- Repeated `getNext` until the end-of-stream return (or until fuel runs
out), collecting the records delivered in order. -/
def BinaryKmerReader.drain {α : Type} [Inhabited α] :
    Nat → BinaryKmerReader α → List α
  | 0, _ => []
  | fuel + 1, s =>
    match s.getNext with
    | (.eof, _) => []
    | (.record r, s') => r :: BinaryKmerReader.drain fuel s'

/-- State of `BinaryKmerWriter`: the first `curr` slots of `KVpair buf[1024]`
(so `curr = buf.length`) and the records already `fwrite`-n to the file. -/
structure BinaryKmerWriter (α : Type) where
  buf : List α
  file : List α
  deriving DecidableEq

/-- Constructor state of `BinaryKmerWriter`: `curr = 0`, nothing written. -/
def BinaryKmerWriter.initWrite {α : Type} : BinaryKmerWriter α :=
  { buf := [], file := [] }

/-- Embedding of `BinaryKmerWriter::write`: `memcpy(&buf[curr], p, ...);
curr++; if (curr == buflen) { fwrite(buf, sizeof(buf[0]), buflen, f);
curr = 0; }`. -/
def BinaryKmerWriter.write {α : Type} (w : BinaryKmerWriter α) (p : α) :
    BinaryKmerWriter α :=
  let buf := w.buf ++ [p]
  if buf.length = buflen then { buf := [], file := w.file ++ buf }
  else { buf := buf, file := w.file }

/-- Sequence of `write` calls, one per record, in order. -/
def BinaryKmerWriter.writeAll {α : Type} (w : BinaryKmerWriter α)
    (l : List α) : BinaryKmerWriter α :=
  l.foldl BinaryKmerWriter.write w

/-- Embedding of `BinaryKmerWriter::finish`: `fwrite(buf, sizeof(buf[0]),
curr, f); curr = 0; fclose(f);` — the remaining `curr` buffered records are
appended to the file and the buffer is emptied. -/
def BinaryKmerWriter.finish {α : Type} (w : BinaryKmerWriter α) :
    BinaryKmerWriter α :=
  { buf := [], file := w.file ++ w.buf }

/-! ## Arithmetic helper lemmas -/

/-- A left shift by `m` or-ed with a value below `2 ^ m` is plain addition. -/
lemma lor_shiftLeft_add (g b m : Nat) (hb : b < 2 ^ m) :
    (g <<< m) ||| b = g * 2 ^ m + b := by
  rw [Nat.shiftLeft_eq, Nat.mul_comm g (2 ^ m)]
  exact (Nat.mul_add_lt_is_or hb g).symm

/-- The low-bit mask built by `splitgrp` extracts `key mod 2 ^ m`. -/
lemma and_shiftLeft_one_sub_one (key m : Nat) :
    key &&& ((1 <<< m) - 1) = key % 2 ^ m := by
  rw [Nat.shiftLeft_eq, one_mul, Nat.and_pow_two_sub_one_eq_mod]

/-- Keys of `L`-symbol k-mers live below `2 ^ (2L)`. -/
lemma four_pow_eq_two_pow_double (L : Nat) : (4 : Nat) ^ L = 2 ^ (2 * L) := by
  rw [show (4 : Nat) = 2 ^ 2 from rfl, ← pow_mul]

/-! ## C1: splitgrp / combgrp -/

/-- C1 (amended): for a configuration with `0 ≤ splitbit ≤ 2*kmerlength` and
additionally `splitbit ≤ 32` (the group id is a `uint32_t`), every key in
`[0, 4^L)` splits into `(key >> (2L-B), key & ((1 << (2L-B)) - 1))`,
recombining restores the key, and split/combine form a bijection between
`[0, 4^L)` and `[0, 2^B) × [0, 2^(2L-B))`. -/
theorem splitgrp_combgrp_bijection (L B key : Nat) (hB : B ≤ 2 * L)
    (h32 : B ≤ 32) (hkey : key < 4 ^ L) :
    (ConstantLengthKmerHelper.combgrp ⟨L, B⟩
        (ConstantLengthKmerHelper.splitgrp ⟨L, B⟩ key).1
        (ConstantLengthKmerHelper.splitgrp ⟨L, B⟩ key).2 = key ∧
      (ConstantLengthKmerHelper.splitgrp ⟨L, B⟩ key).1 = key >>> (2 * L - B) ∧
      (ConstantLengthKmerHelper.splitgrp ⟨L, B⟩ key).2 =
        key &&& ((1 <<< (2 * L - B)) - 1) ∧
      (ConstantLengthKmerHelper.splitgrp ⟨L, B⟩ key).1 < 2 ^ B ∧
      (ConstantLengthKmerHelper.splitgrp ⟨L, B⟩ key).2 < 2 ^ (2 * L - B)) ∧
    ∀ grp kig, grp < 2 ^ B → kig < 2 ^ (2 * L - B) →
      ConstantLengthKmerHelper.combgrp ⟨L, B⟩ grp kig < 4 ^ L ∧
      ConstantLengthKmerHelper.splitgrp ⟨L, B⟩
        (ConstantLengthKmerHelper.combgrp ⟨L, B⟩ grp kig) = (grp, kig) := by
  have hpow : (4 : Nat) ^ L = 2 ^ (2 * L) := four_pow_eq_two_pow_double L
  set m := 2 * L - B with hm
  have hsplitexp : 2 * L = B + m := by omega
  have hple : (2 : Nat) ^ B ≤ 2 ^ 32 := Nat.pow_le_pow_right (by norm_num) h32
  have hmpos : 0 < (2 : Nat) ^ m := Nat.pos_pow_of_pos m (by norm_num)
  constructor
  · have hdivlt : key / 2 ^ m < 2 ^ B := by
      rw [Nat.div_lt_iff_lt_mul hmpos, ← pow_add]
      rw [hpow, hsplitexp] at hkey
      exact hkey
    have hsr : key >>> m = key / 2 ^ m := Nat.shiftRight_eq_div_pow key m
    have hmod : (key >>> m) % 2 ^ 32 = key >>> m :=
      Nat.mod_eq_of_lt (by rw [hsr]; exact lt_of_lt_of_le hdivlt hple)
    have hsplit : ConstantLengthKmerHelper.splitgrp ⟨L, B⟩ key =
        (key >>> m, key % 2 ^ m) := by
      simp only [ConstantLengthKmerHelper.splitgrp, hmod,
        and_shiftLeft_one_sub_one]
    refine ⟨?_, ?_, ?_, ?_, ?_⟩
    · rw [hsplit]
      simp only [ConstantLengthKmerHelper.combgrp]
      rw [show ((key >>> m) % 2 ^ 32) = key >>> m from hmod, hsr,
        lor_shiftLeft_add _ _ _ (Nat.mod_lt key hmpos), Nat.mul_comm,
        Nat.div_add_mod]
    · rw [hsplit]
    · rw [hsplit, and_shiftLeft_one_sub_one]
    · rw [hsplit, hsr]; exact hdivlt
    · rw [hsplit]; exact Nat.mod_lt key hmpos
  · intro grp kig hg hk
    have hgmod : grp % 2 ^ 32 = grp :=
      Nat.mod_eq_of_lt (lt_of_lt_of_le hg hple)
    have hcomb : ConstantLengthKmerHelper.combgrp ⟨L, B⟩ grp kig =
        grp * 2 ^ m + kig := by
      simp only [ConstantLengthKmerHelper.combgrp, hgmod]
      exact lor_shiftLeft_add grp kig m hk
    have hlt : grp * 2 ^ m + kig < 4 ^ L := by
      rw [hpow, hsplitexp, pow_add]
      calc grp * 2 ^ m + kig < grp * 2 ^ m + 2 ^ m := by omega
        _ = (grp + 1) * 2 ^ m := by ring
        _ ≤ 2 ^ B * 2 ^ m := Nat.mul_le_mul_right _ (by omega)
    refine ⟨hcomb ▸ hlt, ?_⟩
    rw [hcomb]
    have hdiv : (grp * 2 ^ m + kig) / 2 ^ m = grp := by
      rw [Nat.mul_comm grp (2 ^ m), Nat.mul_add_div hmpos, Nat.div_eq_of_lt hk,
        Nat.add_zero]
    have hmod2 : (grp * 2 ^ m + kig) % 2 ^ m = kig := by
      rw [Nat.add_mod, Nat.mul_mod_left, Nat.zero_add, Nat.mod_eq_of_lt hk,
        Nat.mod_eq_of_lt hk]
    simp only [ConstantLengthKmerHelper.splitgrp, and_shiftLeft_one_sub_one,
      Nat.shiftRight_eq_div_pow]
    rw [← hm, hdiv, hmod2, hgmod]

/-- C1 counterexample: the configuration `kmerlength = 17`, `splitbit = 33`
satisfies `0 ≤ splitbit ≤ 2*kmerlength`, and `key = 2^33` lies in
`[0, 4^17)`, yet combine-after-split returns `0`, not the key: the group id
`key >> 1 = 2^32` is truncated by the `uint32_t` output parameter. -/
theorem splitgrp_combgrp_roundtrip_cex :
    33 ≤ 2 * 17 ∧ (8589934592 : Nat) < 4 ^ 17 ∧
    ConstantLengthKmerHelper.combgrp ⟨17, 33⟩
      (ConstantLengthKmerHelper.splitgrp ⟨17, 33⟩ 8589934592).1
      (ConstantLengthKmerHelper.splitgrp ⟨17, 33⟩ 8589934592).2 = 0 ∧
    (0 : Nat) ≠ 8589934592 := by
  refine ⟨by norm_num, by norm_num, ?_, by norm_num⟩
  rfl

/-- Witness for C1 at the concrete example of the spec: `L = 4`, `B = 2`,
`key = 107` splits into group `1` and in-group key `43` and recombines to
`107`. -/
theorem splitgrp_combgrp_bijection_witness :
    ConstantLengthKmerHelper.combgrp ⟨4, 2⟩
      (ConstantLengthKmerHelper.splitgrp ⟨4, 2⟩ 107).1
      (ConstantLengthKmerHelper.splitgrp ⟨4, 2⟩ 107).2 = 107 ∧
    ConstantLengthKmerHelper.splitgrp ⟨4, 2⟩ 107 = (1, 43) :=
  ⟨(splitgrp_combgrp_bijection 4 2 107 (by norm_num) (by norm_num)
      (by norm_num)).1.1, by rfl⟩

/-! ## C9: human-readable size formatter -/

/-- C9: the exact boundary table of `human`: `human(0) = "0"` and
`human(1024) = "1024"` (raw decimal for `n ≤ 1024`), `human(1048576) =
"1024K"` (integer `n/1024` plus `"K"`), and every `n > 10485760` takes the
`"M"` branch with integer divisor `1048576` when `n ≤ 1073741824` and the
`"G"` branch when `n > 1073741824`. -/
theorem human_boundaries :
    (human 0).render = some "0" ∧
    (human 1024).render = some "1024" ∧
    (human 1048576).render = some "1024K" ∧
    ∀ n : Nat, 10485760 < n →
      (n ≤ 1073741824 →
        human n = HumanFmt.intM (n / 1048576) ∧ (human n).suffix = "M") ∧
      (1073741824 < n → human n = HumanFmt.floatG n ∧ (human n).suffix = "G") := by
  refine ⟨by rfl, by rfl, by rfl, ?_⟩
  intro n hn
  constructor
  · intro h1
    have he : human n = HumanFmt.intM (n / 1048576) := by
      simp only [human]
      rw [if_neg (by omega), if_neg (by omega), if_neg (by omega),
        if_neg (by omega), if_pos (by omega)]
    exact ⟨he, by rw [he]; rfl⟩
  · intro h2
    have he : human n = HumanFmt.floatG n := by
      simp only [human]
      rw [if_neg (by omega), if_neg (by omega), if_neg (by omega),
        if_neg (by omega), if_neg (by omega)]
    exact ⟨he, by rw [he]; rfl⟩

/-- Witness for C9 at `n = 20000000` (M branch) and `n = 2000000000`
(G branch). -/
theorem human_boundaries_witness :
    human 20000000 = HumanFmt.intM (20000000 / 1048576) ∧
    human 2000000000 = HumanFmt.floatG 2000000000 :=
  ⟨((human_boundaries.2.2.2 20000000 (by norm_num)).1 (by norm_num)).1,
   ((human_boundaries.2.2.2 2000000000 (by norm_num)).2 (by norm_num)).1⟩

/-! ## C5: undefined return value in BinaryKmerReader::getNext -/

/-- C5 (code defect): on a fresh reader over a one-record stream, `getNext`
does deliver the record, but the C++ function ends without a `return`
statement on this path: the boolean it hands back is undefined (`none` in
the model), not the `true` the contract requires. -/
theorem getNext_undefined_return :
    BinaryKmerReader.getNextRetVal
        (BinaryKmerReader.initRead [((5 : Nat), (7 : Nat))]) = none ∧
    (BinaryKmerReader.getNext
        (BinaryKmerReader.initRead [((5 : Nat), (7 : Nat))])).1 =
      GetNextResult.record (5, 7) := by
  exact ⟨rfl, rfl⟩

/-! ## C6: constructors do not fail on an unopenable path -/

/-- C6 (code defect): on a filesystem where no path can be opened, the common
constructor body of `KmerFileReader`, `BinaryKmerReader` and
`BinaryKmerWriter` still returns a fully constructed object whose stored
handle is `NULL` — it is a total function into `OpenResult` with no error
outcome, so nothing fails fast at open time. -/
theorem construct_stores_null_handle :
    (openByName (fun _ => (none : Option Unit)) "missing.bin".toList).f =
      none ∧
    (openByName (fun _ => (none : Option Unit)) "missing.bin".toList) =
      { f := none } :=
  ⟨rfl, rfl⟩

/-! ## C4: convert on malformed lines -/

/-- C4 (code defect): a line whose leading run is valid but which carries no
numeric token (here the line is just the run plus the newline kept by
`fgets`) makes `convert` return `true` with key `27` and the value slot
untouched (`none` models the uninitialized `tv` copied into `*v`, since the
`sscanf` result is never checked); the claimed `ParseFailure` does not
happen.  A line whose first character is not in `{A,C,G,T}` is, as claimed,
rejected immediately. -/
theorem convert_missing_value_token_accepted :
    convert "ACGT\n".toList = some (27, none) ∧
    convert "ACGT\n".toList ≠ none ∧
    convert "5ACGT 7\n".toList = none := by
  exact ⟨rfl, by decide, rfl⟩

/-! ## C7: overlong text lines are split, not rejected -/

set_option maxRecDepth 100000 in
/-- C7 (code defect): a 2000-character line (2000 bases, then a count)
exceeds the 1024-byte `fgets` buffer.  `KmerFileReader::getNext` does not
fail: the first call consumes only the first 1023 characters and returns a
successful record (with key 0 and no value token), and the second call
parses the remainder of the same line as another record — silent truncation
and splitting, with no capacity error. -/
theorem long_line_split_not_rejected :
    (KmerFileReader.getNext
        (List.replicate 2000 'A' ++ [' ', '7', '\n'])).1 =
      some (some (0, none)) ∧
    (KmerFileReader.getNext
        (List.replicate 2000 'A' ++ [' ', '7', '\n'])).2 ≠ [] ∧
    (KmerFileReader.getNext
        (KmerFileReader.getNext
          (List.replicate 2000 'A' ++ [' ', '7', '\n'])).2).1 =
      some (some (0, some 7)) := by
  refine ⟨by decide, by decide, by decide⟩

/-! ## C8: path fixup strips a line feed but not a carriage return -/

/-- C8 counterexample: opening with the path string `"abc\x0d"` (trailing
carriage return) passes the path through unchanged — the constructors test
only for a trailing line feed, so the claimed stripping of a trailing
carriage return does not happen. -/
theorem strip_trailing_cr_cex :
    (openByName (fun p => (some p : Option (List Char)))
        ("abc".toList ++ ['\x0d'])).f = some ("abc".toList ++ ['\x0d']) ∧
    ("abc".toList ++ ['\x0d']) ≠ "abc".toList := by
  exact ⟨rfl, by decide⟩

/-- C8 (amended): for every supplied path, exactly one trailing line-feed
character (if present) is stripped before the underlying file is opened and
no other sanitization is performed — a trailing carriage return (or any
other final character) is kept; this is the constructor body shared by
`KmerFileReader`, `BinaryKmerReader` and `BinaryKmerWriter`. -/
theorem strip_exactly_one_newline {Handle : Type}
    (fs : List Char → Option Handle) (s : List Char) (c : Char)
    (hc : c ≠ '\n') :
    (openByName fs (s ++ ['\n'])).f = fs s ∧
    (openByName fs (s ++ [c])).f = fs (s ++ [c]) ∧
    (openByName fs (s ++ ['\n', '\n'])).f = fs (s ++ ['\n']) := by
  refine ⟨?_, ?_, ?_⟩
  · simp [openByName, stripTrailingNewline, List.getLast?_concat]
  · simp [openByName, stripTrailingNewline, List.getLast?_concat, hc]
  · have : s ++ ['\n', '\n'] = (s ++ ['\n']) ++ ['\n'] := by simp
    rw [this]
    simp [openByName, stripTrailingNewline, List.getLast?_concat]

/-- Witness for C8 at `s = "a"`, `c = 'b'`, identity filesystem. -/
theorem strip_exactly_one_newline_witness :
    (openByName (fun p => (some p : Option (List Char)))
        ("a".toList ++ ['\n'])).f = some "a".toList ∧
    (openByName (fun p => (some p : Option (List Char)))
        ("a".toList ++ ['b'])).f = some ("a".toList ++ ['b']) ∧
    (openByName (fun p => (some p : Option (List Char)))
        ("a".toList ++ ['\n', '\n'])).f = some ("a".toList ++ ['\n']) :=
  strip_exactly_one_newline (fun p => (some p : Option (List Char)))
    "a".toList 'b' (by decide)

/-! ## C3: convert on well-formed lines -/

/-- Horner evaluation of a digit list equals the positional sum with the
most significant symbol first. -/
lemma foldl_mul_add_eq_sum (b : Nat) (g : Char → Nat) :
    ∀ (l : List Char) (r : Nat),
      l.foldl (fun a c => a * b + g c) r =
        r * b ^ l.length +
          ∑ i ∈ Finset.range l.length,
            g (l.getD i 'A') * b ^ (l.length - 1 - i) := by
  intro l
  induction l with
  | nil => intro r; simp
  | cons c t ih =>
    intro r
    rw [List.foldl_cons, ih (r * b + g c)]
    simp only [List.length_cons]
    rw [Finset.sum_range_succ']
    have hshift : ∀ i ∈ Finset.range t.length,
        g ((c :: t).getD (i + 1) 'A') * b ^ (t.length + 1 - 1 - (i + 1)) =
          g (t.getD i 'A') * b ^ (t.length - 1 - i) := by
      intro i _
      rw [List.getD_cons_succ,
        show t.length + 1 - 1 - (i + 1) = t.length - 1 - i from by omega]
    rw [Finset.sum_congr rfl hshift]
    have h0 : g ((c :: t).getD 0 'A') * b ^ (t.length + 1 - 1 - 0) =
        g c * b ^ t.length := by
      rw [List.getD_cons_zero, show t.length + 1 - 1 - 0 = t.length from by
        omega]
    rw [h0]
    ring

/-- The scanning loop consumes exactly a leading all-base run and stops at
the first non-base character, folding the base values into the key. -/
lemma scanKmer_all_base_append (sym : List Char)
    (hs : ∀ c ∈ sym, isBase c = true) :
    ∀ (r : Nat) (rest : List Char),
      (∀ c, rest.head? = some c → isBase c = false) →
      scanKmer r (sym ++ rest) =
        (sym.foldl (fun a c => a * 4 + baseVal c) r, rest) := by
  induction sym with
  | nil =>
    intro r rest hrest
    cases rest with
    | nil => rfl
    | cons c rest' =>
      simp only [List.nil_append, scanKmer, hrest c rfl]
      simp
  | cons c t ih =>
    intro r rest hrest
    have hc : isBase c = true := hs c (List.mem_cons_self c t)
    simp only [List.cons_append, scanKmer, hc, if_pos, List.append_eq]
    rw [ih (fun x hx => hs x (List.mem_cons_of_mem c hx)) (r * 4 + baseVal c)
      rest hrest]
    rfl

/-- A base character is one of the four symbol letters. -/
lemma eq_of_isBase (c : Char) (h : isBase c = true) :
    c = 'A' ∨ c = 'C' ∨ c = 'T' ∨ c = 'G' := by
  simpa [isBase, or_assoc] using h

/-- A whitespace character is never a base symbol. -/
lemma isBase_eq_false_of_space (c : Char) (h : isSpaceChar c = true) :
    isBase c = false := by
  have := (by simpa [isSpaceChar, or_assoc] using h :
    c = ' ' ∨ c = '\t' ∨ c = '\n' ∨ c = '\x0b' ∨ c = '\x0c' ∨ c = '\r')
  rcases this with h1 | h1 | h1 | h1 | h1 | h1 <;> subst h1 <;> decide

/-- A decimal digit is never a base symbol. -/
lemma isBase_eq_false_of_digit (c : Char) (h : c.isDigit = true) :
    isBase c = false := by
  cases hb : isBase c
  · rfl
  · exfalso
    rcases eq_of_isBase c hb with h1 | h1 | h1 | h1 <;> subst h1 <;>
      simp [Char.isDigit] at h

/-- A decimal digit is neither a minus nor a plus sign. -/
lemma digit_ne_sign (c : Char) (h : c.isDigit = true) :
    c ≠ '-' ∧ c ≠ '+' := by
  constructor <;> intro he <;> subst he <;> exact absurd h (by decide)

/-- A decimal digit is not whitespace. -/
lemma isSpaceChar_eq_false_of_digit (c : Char) (h : c.isDigit = true) :
    isSpaceChar c = false := by
  cases hs : isSpaceChar c
  · rfl
  · exfalso
    have := (by simpa [isSpaceChar, or_assoc] using hs :
      c = ' ' ∨ c = '\t' ∨ c = '\n' ∨ c = '\x0b' ∨ c = '\x0c' ∨ c = '\r')
    rcases this with h1 | h1 | h1 | h1 | h1 | h1 <;> subst h1 <;>
      exact absurd h (by decide)

/-- Dropping a satisfying prefix stops exactly at the first failing
character. -/
lemma dropWhile_all_append (p : Char → Bool) (ws rest : List Char)
    (hws : ∀ c ∈ ws, p c = true)
    (hrest : ∀ c, rest.head? = some c → p c = false) :
    (ws ++ rest).dropWhile p = rest := by
  induction ws with
  | nil =>
    cases rest with
    | nil => rfl
    | cons c r => simp [List.dropWhile_cons, hrest c rfl]
  | cons c t ih =>
    simp [List.dropWhile_cons, hws c (List.mem_cons_self c t),
      ih (fun x hx => hws x (List.mem_cons_of_mem c hx))]

/-- Taking a satisfying prefix stops exactly at the first failing
character. -/
lemma takeWhile_all_append (p : Char → Bool) (ds rest : List Char)
    (hds : ∀ c ∈ ds, p c = true)
    (hrest : ∀ c, rest.head? = some c → p c = false) :
    (ds ++ rest).takeWhile p = ds := by
  induction ds with
  | nil =>
    cases rest with
    | nil => rfl
    | cons c r => simp [List.takeWhile_cons, hrest c rfl]
  | cons c t ih =>
    simp [List.takeWhile_cons, hds c (List.mem_cons_self c t),
      ih (fun x hx => hds x (List.mem_cons_of_mem c hx))]

/-- `readDigits` on a nonempty digit run followed by a non-digit consumes
exactly the run. -/
lemma readDigits_run (ds tail : List Char) (hds : ds ≠ [])
    (hdig : ∀ c ∈ ds, c.isDigit = true)
    (htail : ∀ c, tail.head? = some c → c.isDigit = false) :
    readDigits (ds ++ tail) = some (natOfDigits ds) := by
  simp only [readDigits]
  rw [takeWhile_all_append Char.isDigit ds tail hdig htail]
  simp [List.isEmpty_iff, hds]

/-- Reduction of `sscanfD` once the whitespace-stripped input is known. -/
lemma sscanfD_eq_of_dropWhile (s : List Char) (c : Char) (rest : List Char)
    (h : s.dropWhile isSpaceChar = c :: rest) :
    sscanfD s =
      if c = '-' then (readDigits rest).map (fun n => -(n : Int))
      else if c = '+' then (readDigits rest).map (fun n => (n : Int))
      else (readDigits (c :: rest)).map (fun n => (n : Int)) := by
  simp only [sscanfD, h]

/-- `sscanf("%d")` on whitespace, an optional sign and a digit run reads the
signed decimal value of the run. -/
lemma sscanfD_token (ws sgn ds tail : List Char)
    (hws : ∀ c ∈ ws, isSpaceChar c = true)
    (hsgn : sgn = [] ∨ sgn = ['-'] ∨ sgn = ['+'])
    (hds : ds ≠ []) (hdig : ∀ c ∈ ds, c.isDigit = true)
    (htail : ∀ c, tail.head? = some c → c.isDigit = false) :
    sscanfD (ws ++ (sgn ++ (ds ++ tail))) =
      some (if sgn = ['-'] then -(natOfDigits ds : Int)
            else (natOfDigits ds : Int)) := by
  rcases hsgn with h | h | h <;> subst h
  · obtain ⟨d, dr, rfl⟩ : ∃ d dr, ds = d :: dr := by
      cases ds with
      | nil => exact absurd rfl hds
      | cons d dr => exact ⟨d, dr, rfl⟩
    have hd : d.isDigit = true := hdig d (List.mem_cons_self d dr)
    have hdrop : (ws ++ ([] ++ ((d :: dr) ++ tail))).dropWhile isSpaceChar =
        d :: (dr ++ tail) := by
      rw [show (ws ++ ([] ++ ((d :: dr) ++ tail))) =
        ws ++ (d :: (dr ++ tail)) from by simp]
      apply dropWhile_all_append _ _ _ hws
      intro x hx
      simp at hx
      subst hx
      exact isSpaceChar_eq_false_of_digit d hd
    rw [sscanfD_eq_of_dropWhile _ d (dr ++ tail) hdrop,
      if_neg (by simpa using (digit_ne_sign d hd).1),
      if_neg (by simpa using (digit_ne_sign d hd).2),
      show d :: (dr ++ tail) = (d :: dr) ++ tail from rfl,
      readDigits_run (d :: dr) tail hds hdig htail]
    simp
  · have hdrop : (ws ++ (['-'] ++ (ds ++ tail))).dropWhile isSpaceChar =
        '-' :: (ds ++ tail) := by
      apply dropWhile_all_append _ _ _ hws
      intro x hx
      simp at hx
      subst hx
      decide
    rw [sscanfD_eq_of_dropWhile _ '-' (ds ++ tail) hdrop, if_pos rfl,
      readDigits_run ds tail hds hdig htail]
    simp
  · have hdrop : (ws ++ (['+'] ++ (ds ++ tail))).dropWhile isSpaceChar =
        '+' :: (ds ++ tail) := by
      apply dropWhile_all_append _ _ _ hws
      intro x hx
      simp at hx
      subst hx
      decide
    rw [sscanfD_eq_of_dropWhile _ '+' (ds ++ tail) hdrop,
      if_neg (by decide), if_pos rfl,
      readDigits_run ds tail hds hdig htail]
    simp

/-- The first character after the symbol run (whitespace, sign or digit) is
never a base symbol, so the scanning loop stops there. -/
lemma head_not_base_of_token (ws sgn ds tail : List Char)
    (hws : ∀ c ∈ ws, isSpaceChar c = true)
    (hsgn : sgn = [] ∨ sgn = ['-'] ∨ sgn = ['+'])
    (hds : ds ≠ []) (hdig : ∀ c ∈ ds, c.isDigit = true) :
    ∀ x, (ws ++ (sgn ++ (ds ++ tail))).head? = some x → isBase x = false := by
  intro x hx
  cases ws with
  | cons w wr =>
    simp at hx
    subst hx
    exact isBase_eq_false_of_space w (hws w (List.mem_cons_self w wr))
  | nil =>
    rcases hsgn with h | h | h <;> subst h
    · cases ds with
      | nil => exact absurd rfl hds
      | cons d dr =>
        simp at hx
        subst hx
        exact isBase_eq_false_of_digit d (hdig d (List.mem_cons_self d dr))
    · simp at hx
      subst hx
      decide
    · simp at hx
      subst hx
      decide

/-- C3: on a line made of a nonempty A/C/G/T run followed by an integer
token (optional whitespace, optional sign, digit run, arbitrary non-digit
tail), `convert` succeeds and returns exactly the packed key
`Σ value(s_i)·4^(L-1-i)` (A=0, C=1, G=2, T=3, most significant symbol
first) together with the decimal value of the token. -/
theorem convert_wellformed (sym ws sgn ds tail : List Char)
    (hsym : sym ≠ []) (hbase : ∀ c ∈ sym, isBase c = true)
    (hws : ∀ c ∈ ws, isSpaceChar c = true)
    (hsgn : sgn = [] ∨ sgn = ['-'] ∨ sgn = ['+'])
    (hds : ds ≠ []) (hdig : ∀ c ∈ ds, c.isDigit = true)
    (htail : ∀ c, tail.head? = some c → c.isDigit = false) :
    convert (sym ++ (ws ++ (sgn ++ (ds ++ tail)))) =
      some (∑ i ∈ Finset.range sym.length,
              baseVal (sym.getD i 'A') * 4 ^ (sym.length - 1 - i),
            some ((if sgn = ['-'] then (-1 : Int) else 1) *
              (∑ i ∈ Finset.range ds.length,
                ((ds.getD i 'A').toNat - 48) * 10 ^ (ds.length - 1 - i)))) := by
  have hscan : scanKmer 0 (sym ++ (ws ++ (sgn ++ (ds ++ tail)))) =
      (sym.foldl (fun a c => a * 4 + baseVal c) 0,
        ws ++ (sgn ++ (ds ++ tail))) :=
    scanKmer_all_base_append sym hbase 0 _
      (head_not_base_of_token ws sgn ds tail hws hsgn hds hdig)
  have hkey : sym.foldl (fun a c => a * 4 + baseVal c) 0 =
      ∑ i ∈ Finset.range sym.length,
        baseVal (sym.getD i 'A') * 4 ^ (sym.length - 1 - i) := by
    rw [foldl_mul_add_eq_sum]
    simp
  have hval := sscanfD_token ws sgn ds tail hws hsgn hds hdig htail
  have hnat : natOfDigits ds =
      ∑ i ∈ Finset.range ds.length,
        ((ds.getD i 'A').toNat - 48) * 10 ^ (ds.length - 1 - i) := by
    rw [natOfDigits, foldl_mul_add_eq_sum]
    simp
  cases sym with
  | nil => exact absurd rfl hsym
  | cons c t =>
    have hc : isBase c = true := hbase c (List.mem_cons_self c t)
    rw [show (c :: t) ++ (ws ++ (sgn ++ (ds ++ tail))) =
      c :: (t ++ (ws ++ (sgn ++ (ds ++ tail)))) from rfl]
    simp only [convert, hc, if_pos]
    rw [show c :: (t ++ (ws ++ (sgn ++ (ds ++ tail)))) =
      (c :: t) ++ (ws ++ (sgn ++ (ds ++ tail))) from rfl, hscan]
    rw [hval, hkey, hnat]
    by_cases hneg : sgn = ['-']
    · simp only [hneg, if_pos]
      push_cast
      ring_nf
    · simp only [hneg, if_neg, ite_false]
      push_cast
      ring_nf

/-- Witness for C3: the line `"ACGT 12\n"` converts to key
`0·64 + 1·16 + 2·4 + 3 = 27` and value `12`. -/
theorem convert_wellformed_witness :
    convert "ACGT 12\n".toList = some (27, some 12) := by
  have h := convert_wellformed "ACGT".toList " ".toList [] "12".toList
    "\n".toList (by decide) (by decide) (by decide) (Or.inl rfl) (by decide)
    (by decide) (by decide)
  rw [show "ACGT 12\n".toList = "ACGT".toList ++
    (" ".toList ++ ([] ++ ("12".toList ++ "\n".toList))) from rfl, h]
  decide

/-! ## C2: binary writer/reader round trip -/

/-- One `write` appends the record to the logical content
(file followed by buffer), whether or not it triggers a flush. -/
lemma write_file_append {α : Type} (w : BinaryKmerWriter α) (p : α) :
    (w.write p).file ++ (w.write p).buf = w.file ++ w.buf ++ [p] := by
  simp only [BinaryKmerWriter.write]
  by_cases h : (w.buf ++ [p]).length = buflen
  · rw [if_pos h]
    simp
  · rw [if_neg h]
    simp

/-- Writing a record list and finishing yields exactly the file holding the
prior content followed by that list. -/
lemma writeAll_finish_file {α : Type} :
    ∀ (l : List α) (w : BinaryKmerWriter α),
      ((w.writeAll l).finish).file = w.file ++ w.buf ++ l := by
  intro l
  induction l with
  | nil =>
    intro w
    simp [BinaryKmerWriter.writeAll, BinaryKmerWriter.finish]
  | cons p t ih =>
    intro w
    have : (w.writeAll (p :: t)) = ((w.write p).writeAll t) := rfl
    rw [this, ih (w.write p)]
    rw [write_file_append]
    simp

/-- Draining a reader whose cursor and buffer are consistent returns the
unread buffered records followed by the rest of the stream, provided the
fuel covers the remaining records plus the final end-of-stream call. -/
lemma drain_spec {α : Type} [Inhabited α] :
    ∀ (fuel : Nat) (s : BinaryKmerReader α),
      s.curr ≤ s.max → s.max = s.buf.length →
      s.stream.length + (s.max - s.curr) + 1 ≤ fuel →
      BinaryKmerReader.drain fuel s = s.buf.drop s.curr ++ s.stream := by
  intro fuel
  induction fuel with
  | zero => intro s _ _ h3; omega
  | succ n ih =>
    intro s h1 h2 h3
    by_cases hcm : s.curr = s.max
    · have hdropbuf : s.buf.drop s.curr = [] := by
        rw [List.drop_eq_nil_iff]
        omega
      cases hstream : s.stream with
      | nil =>
        have hstep : s.getNext = (.eof, { s with max := 0 }) := by
          simp [BinaryKmerReader.getNext, hcm, hstream]
        simp [BinaryKmerReader.drain, hstep, hdropbuf, hstream]
      | cons x rest =>
        have hchunklen : (s.stream.take buflen).length ≠ 0 := by
          simp [hstream, buflen]
        have hstep : s.getNext =
            (.record ((s.stream.take buflen).getD 0 default),
             { stream := s.stream.drop buflen, buf := s.stream.take buflen,
               curr := 1, max := (s.stream.take buflen).length }) := by
          simp only [BinaryKmerReader.getNext, hcm, if_pos]
          rw [if_neg hchunklen]
        rw [show BinaryKmerReader.drain (n + 1) s =
          (match s.getNext with
           | (.eof, _) => []
           | (.record r, s') => r :: BinaryKmerReader.drain n s')
          from rfl, hstep]
        simp only []
        rw [ih _ (by simpa [buflen] using Nat.one_le_iff_ne_zero.2 hchunklen)
          rfl (by
            simp only [List.length_drop, List.length_take, hstream,
              List.length_cons, buflen]
            simp only [hstream, List.length_cons] at h3
            omega)]
        rw [hdropbuf, List.nil_append, hstream]
        rw [show List.take buflen (x :: rest) = x :: List.take 15 rest from
          rfl]
        rw [show List.drop buflen (x :: rest) = List.drop 15 rest from rfl]
        simp [List.take_append_drop]
    · have hlt : s.curr < s.max := lt_of_le_of_ne h1 hcm
      have hcurrlt : s.curr < s.buf.length := h2 ▸ hlt
      have hstep : s.getNext =
          (.record (s.buf.getD s.curr default),
           { s with curr := s.curr + 1 }) := by
        simp [BinaryKmerReader.getNext, hcm]
      rw [show BinaryKmerReader.drain (n + 1) s =
        (match s.getNext with
         | (.eof, _) => []
         | (.record r, s') => r :: BinaryKmerReader.drain n s')
        from rfl, hstep]
      simp only []
      rw [ih ⟨s.stream, s.buf, s.curr + 1, s.max⟩ (by simp; omega)
        (by simp [h2]) (by simp; omega)]
      rw [List.getD_eq_getElem s.buf default hcurrlt, ← List.cons_append,
        ← List.drop_eq_getElem_cons hcurrlt]

/-- C2: writing any record sequence with `write`, calling `finish`, and
reading the resulting file back with `getNext` until the end-of-stream
signal returns exactly the written sequence, in order, with no loss,
duplication or reordering (the fuel `l.length + 1` covers every record plus
the final end-of-stream call); in particular a finish on the empty buffer
produces a file whose very first `getNext` takes the zero-record
`return false` path. -/
theorem binary_write_read_roundtrip {α : Type} [Inhabited α] (l : List α) :
    BinaryKmerReader.drain (l.length + 1)
        (BinaryKmerReader.initRead
          (((@BinaryKmerWriter.initWrite α).writeAll l).finish).file) = l ∧
    (BinaryKmerReader.getNext
        (BinaryKmerReader.initRead
          ((@BinaryKmerWriter.initWrite α).finish).file)).1 =
      GetNextResult.eof := by
  constructor
  · have hfile : (((@BinaryKmerWriter.initWrite α).writeAll l).finish).file =
        l := by
      rw [writeAll_finish_file l (@BinaryKmerWriter.initWrite α)]
      simp [BinaryKmerWriter.initWrite]
    rw [hfile]
    have h := drain_spec (l.length + 1) (BinaryKmerReader.initRead l)
      (by simp [BinaryKmerReader.initRead])
      (by simp [BinaryKmerReader.initRead])
      (by simp [BinaryKmerReader.initRead])
    simpa [BinaryKmerReader.initRead] using h
  · rfl

/-! ## C10: buffer-cursor invariants -/

/-- C10 counterexample: stream exactly 16 records and call `getNext` 17
times.  The 17th call hits `curr == max == 16`, refills, gets 0 records,
sets `max = 0` and returns false while leaving `curr` at 16 — so after this
call `curr ≤ max` is violated (`curr = 16 > 0 = max`). -/
theorem buffer_cursor_invariant_cex :
    ((fun s => (BinaryKmerReader.getNext s).2)^[17]
        (BinaryKmerReader.initRead (List.range 16))).curr = 16 ∧
    ((fun s => (BinaryKmerReader.getNext s).2)^[17]
        (BinaryKmerReader.initRead (List.range 16))).max = 0 ∧
    ¬ ((fun s => (BinaryKmerReader.getNext s).2)^[17]
          (BinaryKmerReader.initRead (List.range 16))).curr ≤
        ((fun s => (BinaryKmerReader.getNext s).2)^[17]
          (BinaryKmerReader.initRead (List.range 16))).max := by
  refine ⟨by decide, by decide, by decide⟩

/-- C10 (amended): the writer invariant holds as claimed — `curr < 16`
after construction and after every `write`, and `curr = 0` after `finish`.
For the reader, `0 ≤ curr ≤ max ≤ 16` holds after construction and after
every `getNext` that delivers a record; a `getNext` that signals end of
stream instead sets `max = 0` and leaves `curr` unchanged (still at most
16), so in that terminal state `curr ≤ max` may fail. -/
theorem buffer_cursor_invariant {α : Type} [Inhabited α] :
    ((@BinaryKmerWriter.initWrite α).buf.length = 0) ∧
    (∀ (w : BinaryKmerWriter α) (p : α),
      w.buf.length < buflen → (w.write p).buf.length < buflen) ∧
    (∀ w : BinaryKmerWriter α, (w.finish).buf.length = 0) ∧
    (∀ stream : List α,
      (BinaryKmerReader.initRead stream).curr = 0 ∧
      (BinaryKmerReader.initRead stream).max = 0) ∧
    (∀ (s s' : BinaryKmerReader α) (r : α),
      s.curr ≤ s.max → s.max = s.buf.length → s.max ≤ buflen →
      s.getNext = (.record r, s') →
      s'.curr ≤ s'.max ∧ s'.max = s'.buf.length ∧ s'.max ≤ buflen) ∧
    (∀ (s s' : BinaryKmerReader α),
      s.curr ≤ s.max → s.max ≤ buflen → s.getNext = (.eof, s') →
      s'.max = 0 ∧ s'.curr ≤ buflen) := by
  refine ⟨rfl, ?_, ?_, ?_, ?_, ?_⟩
  · intro w p hw
    simp only [BinaryKmerWriter.write]
    by_cases h : (w.buf ++ [p]).length = buflen
    · rw [if_pos h]
      simp [buflen]
    · rw [if_neg h]
      simp only [List.length_append, List.length_singleton] at h ⊢
      omega
  · intro w
    rfl
  · intro stream
    exact ⟨rfl, rfl⟩
  · intro s s' r h1 h2 h3 heq
    by_cases hcm : s.curr = s.max
    · by_cases hck : (s.stream.take buflen).length = 0
      · rw [show s.getNext = (.eof, { s with max := 0 }) from by
          simp [BinaryKmerReader.getNext, hcm, hck]] at heq
        exact absurd (congrArg Prod.fst heq) (by simp)
      · rw [show s.getNext =
          (.record ((s.stream.take buflen).getD 0 default),
           { stream := s.stream.drop buflen, buf := s.stream.take buflen,
             curr := 1, max := (s.stream.take buflen).length }) from by
          simp only [BinaryKmerReader.getNext, hcm, if_pos]
          rw [if_neg hck]] at heq
        have hs' := congrArg Prod.snd heq
        simp only at hs'
        rw [← hs']
        refine ⟨by simpa using Nat.one_le_iff_ne_zero.2 hck, rfl, ?_⟩
        simp [List.length_take, buflen]
    · rw [show s.getNext =
        (.record (s.buf.getD s.curr default),
         { s with curr := s.curr + 1 }) from by
        simp [BinaryKmerReader.getNext, hcm]] at heq
      have hs' := congrArg Prod.snd heq
      simp only at hs'
      rw [← hs']
      refine ⟨by simp; omega, by simpa using h2, by simpa using h3⟩
  · intro s s' h1 h3 heq
    by_cases hcm : s.curr = s.max
    · by_cases hck : (s.stream.take buflen).length = 0
      · rw [show s.getNext = (.eof, { s with max := 0 }) from by
          simp [BinaryKmerReader.getNext, hcm, hck]] at heq
        have hs' := congrArg Prod.snd heq
        simp only at hs'
        rw [← hs']
        exact ⟨rfl, by simp; omega⟩
      · rw [show s.getNext =
          (.record ((s.stream.take buflen).getD 0 default),
           { stream := s.stream.drop buflen, buf := s.stream.take buflen,
             curr := 1, max := (s.stream.take buflen).length }) from by
          simp only [BinaryKmerReader.getNext, hcm, if_pos]
          rw [if_neg hck]] at heq
        exact absurd (congrArg Prod.fst heq) (by simp)
    · rw [show s.getNext =
        (.record (s.buf.getD s.curr default),
         { s with curr := s.curr + 1 }) from by
        simp [BinaryKmerReader.getNext, hcm]] at heq
      exact absurd (congrArg Prod.fst heq) (by simp)

/-- Witness for C10: a concrete `write` below capacity keeps the cursor
below 16, and the concrete record-delivering `getNext` on a fresh two-record
reader reestablishes `curr ≤ max ≤ 16`. -/
theorem buffer_cursor_invariant_witness :
    ((@BinaryKmerWriter.initWrite Nat).write 5).buf.length < buflen ∧
    ((⟨[], [3, 4], 1, 2⟩ : BinaryKmerReader Nat).curr ≤
        (⟨[], [3, 4], 1, 2⟩ : BinaryKmerReader Nat).max ∧
      (⟨[], [3, 4], 1, 2⟩ : BinaryKmerReader Nat).max =
        (⟨[], [3, 4], 1, 2⟩ : BinaryKmerReader Nat).buf.length ∧
      (⟨[], [3, 4], 1, 2⟩ : BinaryKmerReader Nat).max ≤ buflen) :=
  ⟨buffer_cursor_invariant.2.1 (@BinaryKmerWriter.initWrite Nat) 5
      (by decide),
   buffer_cursor_invariant.2.2.2.2.1 (BinaryKmerReader.initRead [3, 4])
      ⟨[], [3, 4], 1, 2⟩ 3 (by decide) (by decide) (by decide) (by decide)⟩

/-- Witness for C2 at the concrete two-record sequence `[10, 20]`. -/
theorem binary_write_read_roundtrip_witness :
    BinaryKmerReader.drain ([10, 20].length + 1)
        (BinaryKmerReader.initRead
          (((@BinaryKmerWriter.initWrite Nat).writeAll [10, 20]).finish).file)
      = [10, 20] :=
  (binary_write_read_roundtrip [10, 20]).1
